import Mathlib

/-!
Verification of the incidence-matrix core of the `dobble` package, embedded
from `src/dobble/planes.py`, `src/dobble/utils.py` and `src/dobble/constants.py`.

Modelling conventions:
* Python numbers of type `int | float` are modelled as rationals (`ℚ`); a
  float holds an exact rational value, and `float.is_integer()` is `den = 1`.
* `int(num ** 0.5)` in `utils.is_prime` is modelled as the exact integer
  square root `Nat.sqrt num`; for inputs below `2 ^ 52` the conversion to
  float is exact and the correctly rounded square root floors to this value.
* A raised Python exception is modelled as `Except.error` carrying the
  exception class.  `planes.compute_incidence_matrix` references
  `constants.FPP_KERNELS`, an attribute that `constants.py` does not define
  (the module defines the kernel table under the name `PERMUTATIONS`), so
  evaluating `order in list(constants.FPP_KERNELS)` raises `AttributeError`.
* NumPy integer matrices are modelled as `List (List ℕ)`; permutations
  (NumPy arrays of integers) are modelled as `List ℤ`.
-/

namespace Dobble

/-- Python exception classes that the embedded code can raise:
`valueError` models `ValueError`, and `attributeError` models the
`AttributeError` raised when a module attribute lookup fails
(as for the undefined `constants.FPP_KERNELS`). -/
inductive PyError where
  | valueError
  | attributeError
  deriving DecidableEq, Repr

/-- Embeds `utils.is_integer`:
`isinstance(num, int) or (isinstance(num, float) and num.is_integer())`.
A rational models an `int` or an integral-valued `float` exactly when its
denominator is `1`. -/
def is_integer (num : ℚ) : Bool :=
  num.den == 1

/-- Embeds `utils.is_prime`.  The source sets `state = False` when the input
is not an integer or is `≤ 1`, and otherwise runs
`for i in range(2, int(num ** 0.5) + 1): if num % i == 0: state = False; break`.
The loop is the `List.all` over `range(2, int(num ** 0.5) + 1)`, and
`int(num ** 0.5)` is modelled as `Nat.sqrt`. -/
def is_prime (num : ℚ) : Bool :=
  if is_integer num = true ∧ 1 < num then
    (List.range' 2 (Nat.sqrt num.num.toNat + 1 - 2)).all
      (fun i => decide (¬ num.num % (i : ℤ) = 0))
  else
    false

/-- Embeds `planes._get_permutation_matrix`.  The content validation is
`set(permutation) != set(range(1, len(permutation) + 1)) or len(permutation) == 0`,
raising `ValueError("Invalid permutation.")`; otherwise the result is the
zero matrix with `permutation_matrix[row, permutation[row] - 1] = 1` for
every row.  (The `isinstance`/`ndim` checks concern the NumPy array type
itself and also raise the same `ValueError`; the one-dimensional integer
content is what is modelled.) -/
def get_permutation_matrix (permutation : List ℤ) : Except PyError (List (List ℕ)) :=
  if permutation.toFinset ≠ (Finset.range permutation.length).image (fun k : ℕ => (k : ℤ) + 1)
      ∨ permutation.length = 0 then
    .error .valueError
  else
    .ok ((List.range permutation.length).map (fun row =>
      (List.range permutation.length).map (fun col : ℕ =>
        if permutation.getD row 0 = (col : ℤ) + 1 then 1 else 0)))

/-- Embeds the `leading_entry` computation of `planes.compute_incidence_matrix`
for prime orders: `leading_entry = (1 + i * j) % order`, remapped to `order`
when the modulus is `0`. -/
def fpp_leading_entry (order i j : ℕ) : ℕ :=
  if (1 + i * j) % order = 0 then order else (1 + i * j) % order

/-- Embeds the permutation computed for inner block `(i, j)` at a prime order:
`permutation = (np.array(range(0, order)) + leading_entry) % order` followed by
`permutation[permutation == 0] = order`. -/
def fpp_permutation (order i j : ℕ) : List ℤ :=
  (List.range order).map (fun k =>
    if (k + fpp_leading_entry order i j) % order = 0 then (order : ℤ)
    else ((k + fpp_leading_entry order i j) % order : ℕ))

/-- Embeds the inner-block computation of `planes.compute_incidence_matrix`
at a prime order: `np.eye(order)` when `i == 0 or j == 0`, otherwise the
permutation matrix of the closed-form permutation, built by
`_get_permutation_matrix`. -/
def fpp_block (order i j : ℕ) : Except PyError (List (List ℕ)) :=
  if i = 0 ∨ j = 0 then
    .ok ((List.range order).map (fun r =>
      (List.range order).map (fun c => if r = c then 1 else 0)))
  else
    get_permutation_matrix (fpp_permutation order i j)

/-- Entry lookup in a matrix represented as a list of rows. -/
def matrixEntry (m : List (List ℕ)) (r c : ℕ) : ℕ :=
  (m.getD r []).getD c 0

/-- Entry `(k, l)` of inner block `(i, j)`; the defaulted `.error` branch is
never reached when the incidence matrix is actually returned (the caller
checks every block first). -/
def block_entry (order i j k l : ℕ) : ℕ :=
  matrixEntry ((fpp_block order i j).toOption.getD []) k l

/-- Entry `(r, c)` of the incidence matrix assembled by
`planes.compute_incidence_matrix` at a prime order.  The five regions are the
source's writes, which touch pairwise disjoint index sets (the only overlap,
entry `(0, 0)`, is written `1` by both boundary writes):
row 0 over columns `0 .. order` (step a), column 0 over rows `0 .. order`
(step b), the per-block row and column strips (steps c and d), and the
kernel of `order × order` permutation blocks placed at offset
`(order + 1 + i * order, order + 1 + j * order)`. -/
def incidence_entry (order r c : ℕ) : ℕ :=
  if r = 0 ∧ c ≤ order then 1
  else if c = 0 ∧ r ≤ order then 1
  else if 1 ≤ r ∧ r ≤ order ∧ order + 1 + (r - 1) * order ≤ c ∧ c < order + 1 + r * order then 1
  else if 1 ≤ c ∧ c ≤ order ∧ order + 1 + (c - 1) * order ≤ r ∧ r < order + 1 + c * order then 1
  else if order + 1 ≤ r ∧ order + 1 ≤ c then
    block_entry order ((r - (order + 1)) / order) ((c - (order + 1)) / order)
      ((r - (order + 1)) % order) ((c - (order + 1)) % order)
  else 0

/-- The incidence matrix of size `order ^ 2 + order + 1` as a list of rows. -/
def incidence_matrix_list (order : ℕ) : List (List ℕ) :=
  (List.range (order ^ 2 + order + 1)).map (fun r =>
    (List.range (order ^ 2 + order + 1)).map (fun c => incidence_entry order r c))

/-- Embeds `planes.compute_incidence_matrix`.  The guard is
`if not (is_prime or order in list(constants.FPP_KERNELS))`: when
`utils.is_prime(order)` is true the `or` short-circuits and the matrix is
assembled (any invalid generated permutation would surface as the builder's
`ValueError`, checked here for every inner block before returning); when it
is false, Python evaluates `list(constants.FPP_KERNELS)` and raises
`AttributeError`, because `constants.py` defines the kernel table as
`PERMUTATIONS` and has no attribute `FPP_KERNELS`. -/
def compute_incidence_matrix (order : ℤ) : Except PyError (List (List ℕ)) :=
  if is_prime (order : ℚ) = true then
    if (List.range order.toNat).all (fun i => (List.range order.toNat).all (fun j =>
        match fpp_block order.toNat i j with
        | .ok _ => true
        | .error _ => false)) then
      .ok (incidence_matrix_list order.toNat)
    else
      .error .valueError
  else
    .error .attributeError

/-- Embeds `constants._PERMUTATIONS_4` (Figure 7 of Montaron (1985)). -/
def PERMUTATIONS_4 : List (List (List ℤ)) :=
  [[[2, 1, 4, 3], [3, 4, 1, 2], [4, 3, 2, 1]],
   [[3, 4, 1, 2], [4, 3, 2, 1], [2, 1, 4, 3]],
   [[4, 3, 2, 1], [2, 1, 4, 3], [3, 4, 1, 2]]]

/-- Embeds `constants._M1`. -/
def M1 : List ℤ := [2, 1, 4, 3, 6, 5, 8, 7]

/-- Embeds `constants._M2`. -/
def M2 : List ℤ := [3, 4, 1, 2, 7, 8, 5, 6]

/-- Embeds `constants._M3`. -/
def M3 : List ℤ := [4, 3, 2, 1, 8, 7, 6, 5]

/-- Embeds `constants._M4`. -/
def M4 : List ℤ := [5, 6, 7, 8, 1, 2, 3, 4]

/-- Embeds `constants._M5`. -/
def M5 : List ℤ := [6, 5, 8, 7, 2, 1, 4, 3]

/-- Embeds `constants._M6`. -/
def M6 : List ℤ := [7, 8, 5, 6, 3, 4, 1, 2]

/-- Embeds `constants._M7`. -/
def M7 : List ℤ := [8, 7, 6, 5, 4, 3, 2, 1]

/-- Embeds `constants._PERMUTATIONS_8` (Section 6 of Montaron (1985)). -/
def PERMUTATIONS_8 : List (List (List ℤ)) :=
  [[M1, M2, M3, M4, M5, M6, M7],
   [M2, M6, M4, M1, M3, M7, M5],
   [M3, M4, M7, M5, M6, M1, M2],
   [M4, M1, M5, M3, M7, M2, M6],
   [M5, M3, M6, M7, M2, M4, M1],
   [M6, M7, M1, M2, M4, M5, M3],
   [M7, M5, M2, M6, M1, M3, M4]]

/-- Embeds `constants.PERMUTATIONS`, the kernel lookup table keyed by the
supported prime-power orders `4` and `8`. -/
def PERMUTATIONS : ℕ → Option (List (List (List ℤ)))
  | 4 => some PERMUTATIONS_4
  | 8 => some PERMUTATIONS_8
  | _ => none

/-- Reading entry `r` of the row list produced by mapping over `List.range`. -/
theorem getD_map_range {α : Type} (f : ℕ → α) {n r : ℕ} (h : r < n) (d : α) :
    ((List.range n).map f).getD r d = f r := by
  rw [List.getD_eq_getElem?_getD, List.getElem?_map, List.getElem?_range h,
    Option.map_some', Option.getD_some]

/-- The set-equality check of `_get_permutation_matrix` succeeds exactly when
the list is a non-empty, duplicate-free enumeration of `{1, …, n}`. -/
theorem perm_check_iff (p : List ℤ) :
    (p.toFinset = (Finset.range p.length).image (fun k : ℕ => (k : ℤ) + 1) ∧
        p.length ≠ 0) ↔
      (p ≠ [] ∧ p.Nodup ∧ ∀ x ∈ p, 1 ≤ x ∧ x ≤ (p.length : ℤ)) := by
  have hinj : Function.Injective (fun k : ℕ => (k : ℤ) + 1) := by
    intro a b hab
    simpa using hab
  constructor
  · rintro ⟨hset, hlen⟩
    have hcard : p.toFinset.card = p.length := by
      rw [hset, Finset.card_image_of_injective _ hinj, Finset.card_range]
    have hnodup : p.Nodup := by
      rw [← List.dedup_eq_self]
      refine p.dedup_sublist.eq_of_length ?_
      rw [← List.card_toFinset, hcard]
    refine ⟨fun h => hlen (by simp [h]), hnodup, ?_⟩
    intro x hx
    have hmem : x ∈ p.toFinset := List.mem_toFinset.mpr hx
    rw [hset] at hmem
    simp only [Finset.mem_image, Finset.mem_range] at hmem
    obtain ⟨k, hk, rfl⟩ := hmem
    omega
  · rintro ⟨hne, hnodup, hmem⟩
    have hlen : p.length ≠ 0 := by
      simpa [List.length_eq_zero] using hne
    refine ⟨Finset.eq_of_subset_of_card_le ?_ ?_, hlen⟩
    · intro x hx
      rw [List.mem_toFinset] at hx
      obtain ⟨h1, h2⟩ := hmem x hx
      refine Finset.mem_image.mpr ⟨(x - 1).toNat, Finset.mem_range.mpr ?_, ?_⟩
      · omega
      · omega
    · rw [Finset.card_image_of_injective _ hinj, Finset.card_range,
        List.toFinset_card_of_nodup hnodup]

/-- On a valid permutation the builder returns the matrix with a single `1`
per row, at column `permutation[row] - 1`. -/
theorem get_permutation_matrix_ok {p : List ℤ}
    (h : p ≠ [] ∧ p.Nodup ∧ ∀ x ∈ p, 1 ≤ x ∧ x ≤ (p.length : ℤ)) :
    get_permutation_matrix p =
      .ok ((List.range p.length).map (fun row =>
        (List.range p.length).map (fun col : ℕ =>
          if p.getD row 0 = (col : ℤ) + 1 then 1 else 0))) := by
  have hc := (perm_check_iff p).mpr h
  rw [get_permutation_matrix, if_neg]
  push_neg
  exact ⟨hc.1, hc.2⟩

/-- The builder fails (with `ValueError`) exactly on invalid permutations. -/
theorem get_permutation_matrix_error_iff (p : List ℤ) :
    get_permutation_matrix p = .error .valueError ↔
      ¬ (p ≠ [] ∧ p.Nodup ∧ ∀ x ∈ p, 1 ≤ x ∧ x ≤ (p.length : ℤ)) := by
  rw [get_permutation_matrix]
  split_ifs with hcond
  · simp only [iff_true_intro rfl, true_iff]
    intro hvalid
    have hc := (perm_check_iff p).mpr hvalid
    rcases hcond with hcond | hcond
    · exact hcond hc.1
    · exact hc.2 hcond
  · constructor
    · intro h
      exact absurd h (by simp)
    · intro hvalid
      push_neg at hcond
      exact absurd ((perm_check_iff p).mp ⟨hcond.1, hcond.2⟩) hvalid

/-- The leading entry lies in `{1, …, order}` and is congruent to
`1 + i * j` modulo the order. -/
theorem fpp_leading_entry_spec {n i j : ℕ} (hn : 0 < n) :
    1 ≤ fpp_leading_entry n i j ∧ fpp_leading_entry n i j ≤ n ∧
      fpp_leading_entry n i j % n = (1 + i * j) % n := by
  have hlt : (1 + i * j) % n < n := Nat.mod_lt _ hn
  rw [fpp_leading_entry]
  split_ifs with h
  · exact ⟨hn, le_refl n, by rw [Nat.mod_self, h]⟩
  · exact ⟨Nat.one_le_iff_ne_zero.mpr h, le_of_lt hlt, Nat.mod_eq_of_lt hlt⟩

/-- Closed form of the prime-order inner permutation: entry `k` is
`(k + i * j) % order + 1`. -/
theorem fpp_permutation_getD {n i j k : ℕ} (hn : 0 < n) (hk : k < n) :
    (fpp_permutation n i j).getD k 0 = (((k + i * j) % n + 1 : ℕ) : ℤ) := by
  rw [fpp_permutation, getD_map_range _ hk]
  obtain ⟨he1, he2, he3⟩ := fpp_leading_entry_spec (i := i) (j := j) hn
  set e := fpp_leading_entry n i j with hedef
  set b := (k + i * j) % n with hbdef
  have hb : b < n := Nat.mod_lt _ hn
  have hmod : (k + e) % n = (b + 1) % n := by
    calc (k + e) % n = (k % n + e % n) % n := by rw [Nat.add_mod]
    _ = (k % n + (1 + i * j) % n) % n := by rw [he3]
    _ = (k + (1 + i * j)) % n := by rw [← Nat.add_mod]
    _ = ((k + i * j) + 1) % n := by ring_nf
    _ = ((k + i * j) % n + 1 % n) % n := by rw [Nat.add_mod]
    _ = (b + 1 % n) % n := by rw [← hbdef]
    _ = (b % n + 1 % n) % n := by rw [Nat.mod_eq_of_lt hb]
    _ = (b + 1) % n := by rw [← Nat.add_mod]
  by_cases hz : (k + e) % n = 0
  · rw [if_pos hz]
    rw [hz] at hmod
    have hbn : b + 1 = n := by
      rcases Nat.lt_or_ge (b + 1) n with hlt | hge
      · rw [Nat.mod_eq_of_lt hlt] at hmod
        omega
      · omega
    exact_mod_cast congrArg (fun t : ℕ => (t : ℤ)) hbn.symm
  · rw [if_neg hz]
    have hbn : b + 1 < n := by
      rcases Nat.lt_or_ge (b + 1) n with hlt | hge
      · exact hlt
      · have : b + 1 = n := by omega
        rw [this, Nat.mod_self] at hmod
        exact absurd hmod hz
    rw [hmod, Nat.mod_eq_of_lt hbn]

/-- The closed-form inner permutation is a valid permutation of `{1, …, n}`
for every order `n ≥ 1` and all block indices. -/
theorem fpp_permutation_valid {n i j : ℕ} (hn : 0 < n) :
    fpp_permutation n i j ≠ [] ∧ (fpp_permutation n i j).Nodup ∧
      ∀ x ∈ fpp_permutation n i j, 1 ≤ x ∧ x ≤ ((fpp_permutation n i j).length : ℤ) := by
  have hlen : (fpp_permutation n i j).length = n := by
    simp [fpp_permutation]
  have hfun : ∀ k < n, (fpp_permutation n i j).getD k 0 = (((k + i * j) % n + 1 : ℕ) : ℤ) :=
    fun k hk => fpp_permutation_getD hn hk
  have hget : ∀ k < n,
      (if (k + fpp_leading_entry n i j) % n = 0 then (n : ℤ)
        else (((k + fpp_leading_entry n i j) % n : ℕ) : ℤ)) =
        (((k + i * j) % n + 1 : ℕ) : ℤ) := by
    intro k hk
    have := fpp_permutation_getD (i := i) (j := j) hn hk
    rwa [fpp_permutation, getD_map_range _ hk] at this
  refine ⟨?_, ?_, ?_⟩
  · intro h
    rw [h] at hlen
    simp at hlen
    omega
  · rw [fpp_permutation]
    refine List.Nodup.map_on ?_ (List.nodup_range n)
    intro x hx y hy hxy
    rw [List.mem_range] at hx hy
    rw [hget x hx, hget y hy] at hxy
    have hxy0 : (x + i * j) % n + 1 = (y + i * j) % n + 1 := by
      exact_mod_cast hxy
    have hxy' : (x + i * j) % n = (y + i * j) % n := by
      omega
    have := Nat.ModEq.add_right_cancel' (i * j) hxy'
    rw [Nat.ModEq, Nat.mod_eq_of_lt hx, Nat.mod_eq_of_lt hy] at this
    exact this
  · intro x hx
    rw [fpp_permutation, List.mem_map] at hx
    obtain ⟨k, hk, hkx⟩ := hx
    rw [List.mem_range] at hk
    rw [hget k hk] at hkx
    have hb : (k + i * j) % n < n := Nat.mod_lt _ hn
    rw [hlen, ← hkx]
    constructor
    · exact_mod_cast Nat.succ_le_succ (Nat.zero_le _)
    · exact_mod_cast hb

/-- Every inner block of the prime-order construction is produced without
error. -/
theorem fpp_block_ok {n i j : ℕ} (hn : 0 < n) :
    ∃ m, fpp_block n i j = .ok m := by
  rw [fpp_block]
  split_ifs with h
  · exact ⟨_, rfl⟩
  · exact ⟨_, get_permutation_matrix_ok (fpp_permutation_valid hn)⟩

/-- Closed form for the entries of every inner block: block `(i, j)` is the
permutation matrix of `k ↦ (k + i * j) % n` (as a 0-based map), including the
identity blocks at `i = 0` or `j = 0`. -/
theorem block_entry_eq {n i j k l : ℕ} (hn : 0 < n) (hk : k < n) (hl : l < n) :
    block_entry n i j k l = if (k + i * j) % n = l then 1 else 0 := by
  rw [block_entry, fpp_block]
  by_cases h : i = 0 ∨ j = 0
  · have hij : i * j = 0 := by
      rcases h with h | h <;> simp [h]
    rw [if_pos h]
    simp only [Except.toOption, Option.getD_some, matrixEntry]
    rw [getD_map_range _ hk, getD_map_range _ hl, hij, Nat.add_zero, Nat.mod_eq_of_lt hk]
  · rw [if_neg h, get_permutation_matrix_ok (fpp_permutation_valid hn)]
    have hlen : (fpp_permutation n i j).length = n := by
      simp [fpp_permutation]
    simp only [Except.toOption, Option.getD_some, matrixEntry]
    rw [hlen, getD_map_range _ hk, getD_map_range _ hl,
      fpp_permutation_getD hn hk]
    have hb : (k + i * j) % n < n := Nat.mod_lt _ hn
    by_cases hc : (k + i * j) % n = l
    · rw [if_pos hc, if_pos]
      exact_mod_cast congrArg (fun t : ℕ => ((t : ℤ) + 1)) hc
    · rw [if_neg hc, if_neg]
      intro hcontra
      apply hc
      have : ((k + i * j) % n + 1 : ℕ) = (l + 1 : ℕ) := by
        exact_mod_cast hcontra
      omega

/-- Decoding the block row and offset from a kernel index. -/
theorem kernel_decode {n u v : ℕ} (hn : 0 < n) (hv : v < n) :
    (u * n + v) / n = u ∧ (u * n + v) % n = v := by
  have h1 : u * n + v = v + n * u := by ring
  constructor
  · rw [h1, Nat.add_mul_div_left _ _ hn, Nat.div_eq_of_lt hv, Nat.zero_add]
  · rw [h1, Nat.add_mul_mod_self_left, Nat.mod_eq_of_lt hv]

/-- A kernel index `u * n + v` with `v < n` lies in strip `a` exactly when
`u = a`. -/
theorem block_strip_iff {n a u v : ℕ} (hv : v < n) :
    (a * n ≤ u * n + v ∧ u * n + v < a * n + n) ↔ u = a := by
  constructor
  · rintro ⟨h1, h2⟩
    by_contra hne
    rcases Nat.lt_or_ge u a with h | h
    · have hle : u + 1 ≤ a := h
      have : (u + 1) * n ≤ a * n := Nat.mul_le_mul_right n hle
      have he : (u + 1) * n = u * n + n := by ring
      omega
    · have ha : a + 1 ≤ u := by omega
      have : (a + 1) * n ≤ u * n := Nat.mul_le_mul_right n ha
      have he : (a + 1) * n = a * n + n := by ring
      omega
  · rintro rfl
    omega

/-- Every index below `n² + n + 1` is either a boundary index (`≤ n`) or a
kernel index `n + 1 + (u * n + v)`. -/
theorem index_cases {n x : ℕ} (hx : x < n ^ 2 + n + 1) :
    x ≤ n ∨ ∃ u v, u < n ∧ v < n ∧ x = n + 1 + (u * n + v) := by
  rcases le_or_lt x n with h | h
  · exact Or.inl h
  · right
    have hsq : n ^ 2 = n * n := pow_two n
    have hn : 0 < n := by
      rcases Nat.eq_zero_or_pos n with h0 | h0
      · subst h0
        simp at hx
        omega
      · exact h0
    set t := x - (n + 1) with ht
    have htlt : t < n * n := by omega
    refine ⟨t / n, t % n, (Nat.div_lt_iff_lt_mul hn).mpr htlt, Nat.mod_lt _ hn, ?_⟩
    have hdm := Nat.div_add_mod t n
    have hmc : t / n * n = n * (t / n) := Nat.mul_comm _ _
    omega

/-- Entry lemma for row `0` on the boundary columns. -/
theorem entry_row0_left {n c : ℕ} (hc : c ≤ n) : incidence_entry n 0 c = 1 := by
  rw [incidence_entry, if_pos ⟨rfl, hc⟩]

/-- Entry lemma for row `0` on the kernel columns. -/
theorem entry_row0_kernel {n j l : ℕ} :
    incidence_entry n 0 (n + 1 + (j * n + l)) = 0 := by
  rw [incidence_entry]
  set t := j * n + l
  rw [if_neg (by omega), if_neg (by omega), if_neg (by omega), if_neg (by omega),
    if_neg (by omega)]

/-- Entry lemma for the boundary rows `1 .. n` on the boundary columns. -/
theorem entry_rows_left {n r c : ℕ} (hr1 : 1 ≤ r) (hr2 : r ≤ n) (hc : c ≤ n) :
    incidence_entry n r c = if c = 0 then 1 else 0 := by
  rw [incidence_entry, if_neg (by omega)]
  by_cases h0 : c = 0
  · rw [if_pos ⟨h0, hr2⟩, if_pos h0]
  · rw [if_neg (by omega), if_neg (by omega), if_neg (by omega), if_neg (by omega),
      if_neg h0]

/-- Entry lemma for the boundary rows `1 .. n` on the kernel columns: row `r`
covers exactly block strip `r - 1`. -/
theorem entry_rows_kernel {n r j l : ℕ} (hr1 : 1 ≤ r) (hr2 : r ≤ n) (hl : l < n) :
    incidence_entry n r (n + 1 + (j * n + l)) = if j = r - 1 then 1 else 0 := by
  obtain ⟨r', rfl⟩ : ∃ r', r = r' + 1 := ⟨r - 1, by omega⟩
  rw [incidence_entry]
  simp only [Nat.add_sub_cancel, Nat.succ_mul]
  have hstrip := block_strip_iff (n := n) (a := r') (u := j) (v := l) hl
  rw [if_neg (by omega), if_neg (by omega)]
  by_cases hj : j = r'
  · rw [if_pos ?_, if_pos hj]
    refine ⟨by omega, hr2, ?_, ?_⟩ <;> (subst hj; omega)
  · rw [if_neg (by rintro ⟨-, -, h3, h4⟩; exact hj (hstrip.mp ⟨by omega, by omega⟩)),
      if_neg (by omega), if_neg (by omega), if_neg hj]

/-- Entry lemma for the kernel rows on the boundary columns: kernel row
`n + 1 + (i * n + k)` has its boundary `1` exactly at column `i + 1`. -/
theorem entry_kernel_left {n i k c : ℕ} (hi : i < n) (hk : k < n) (hc : c ≤ n) :
    incidence_entry n (n + 1 + (i * n + k)) c = if c = i + 1 then 1 else 0 := by
  rw [incidence_entry]
  rw [if_neg (by omega), if_neg (by omega), if_neg (by omega)]
  by_cases hc0 : c = i + 1
  · subst hc0
    rw [if_pos ?_, if_pos rfl]
    have e1 : (i + 1 - 1) * n = i * n := by simp
    have e2 : (i + 1) * n = i * n + n := by ring
    refine ⟨by omega, by omega, by omega, by omega⟩
  · rw [if_neg ?_, if_neg (by omega), if_neg hc0]
    rintro ⟨hc1, -, h3, h4⟩
    obtain ⟨c', rfl⟩ : ∃ c', c = c' + 1 := ⟨c - 1, by omega⟩
    have e1 : (c' + 1 - 1) * n = c' * n := by simp
    have e2 : (c' + 1) * n = c' * n + n := by ring
    have : i = c' := (block_strip_iff hk).mp ⟨by omega, by omega⟩
    exact hc0 (by omega)

/-- Entry lemma for the kernel rows on the kernel columns: the permutation
block in closed form. -/
theorem entry_kernel_kernel {n i k j l : ℕ} (hn : 0 < n) (hi : i < n) (hk : k < n)
    (hj : j < n) (hl : l < n) :
    incidence_entry n (n + 1 + (i * n + k)) (n + 1 + (j * n + l)) =
      if (k + i * j) % n = l then 1 else 0 := by
  rw [incidence_entry]
  rw [if_neg (by omega), if_neg (by omega), if_neg (by omega), if_neg (by omega),
    if_pos (by omega)]
  rw [Nat.add_sub_cancel_left, Nat.add_sub_cancel_left]
  rw [(kernel_decode hn hk).1, (kernel_decode hn hk).2,
    (kernel_decode hn hl).1, (kernel_decode hn hl).2]
  exact block_entry_eq hn hk hl

/-- Splitting a sum over `range (a * b)` into block rows. -/
theorem sum_range_double (f : ℕ → ℕ) (a b : ℕ) :
    ∑ t ∈ Finset.range (a * b), f t =
      ∑ u ∈ Finset.range a, ∑ v ∈ Finset.range b, f (u * b + v) := by
  induction a with
  | zero => simp
  | succ a ih =>
    have h1 : (a + 1) * b = a * b + b := by ring
    rw [h1, Finset.sum_range_add, ih, Finset.sum_range_succ]

/-- A sum of the indicator of a fixed value over its range is `1`. -/
theorem sum_indicator_eq {n v : ℕ} (hv : v < n) :
    ∑ c ∈ Finset.range n, (if c = v then 1 else 0) = 1 := by
  rw [Finset.sum_ite_eq' (Finset.range n) v (fun _ => (1 : ℕ)),
    if_pos (Finset.mem_range.mpr hv)]

/-- A sum of the indicator of a residue over a full period is `1`. -/
theorem sum_mod_indicator {n : ℕ} (hn : 0 < n) (x : ℕ) :
    ∑ l ∈ Finset.range n, (if x % n = l then 1 else 0) = 1 := by
  calc ∑ l ∈ Finset.range n, (if x % n = l then 1 else 0)
      = ∑ l ∈ Finset.range n, (if l = x % n then 1 else 0) :=
        Finset.sum_congr rfl fun l _ => if_congr ⟨Eq.symm, Eq.symm⟩ rfl rfl
    _ = 1 := sum_indicator_eq (Nat.mod_lt _ hn)

/-- For each shift `a`, exactly one `k` in a period satisfies
`(k + a) % n = l`. -/
theorem sum_shift_mod_indicator {n a l : ℕ} (hn : 0 < n) (hl : l < n) :
    ∑ k ∈ Finset.range n, (if (k + a) % n = l then 1 else 0) = 1 := by
  have hb : a % n < n := Nat.mod_lt _ hn
  have key : ∀ k, k < n → ((k + a) % n = l ↔ k = (l + n - a % n) % n) := by
    intro k hk
    have h1 : (k + a % n) % n = (k + a) % n := Nat.ModEq.add_left k (Nat.mod_modEq a n)
    have e1 : (k + a % n) % n = if k + a % n < n then k + a % n else k + a % n - n := by
      split_ifs with h
      · exact Nat.mod_eq_of_lt h
      · rw [Nat.mod_eq_sub_mod (by omega), Nat.mod_eq_of_lt (by omega)]
    have e2 : (l + n - a % n) % n =
        if l + n - a % n < n then l + n - a % n else l + n - a % n - n := by
      split_ifs with h
      · exact Nat.mod_eq_of_lt h
      · rw [Nat.mod_eq_sub_mod (by omega), Nat.mod_eq_of_lt (by omega)]
    rw [← h1, e1, e2]
    split_ifs <;> omega
  calc ∑ k ∈ Finset.range n, (if (k + a) % n = l then 1 else 0)
      = ∑ k ∈ Finset.range n, (if k = (l + n - a % n) % n then 1 else 0) :=
        Finset.sum_congr rfl fun k hk => if_congr (key k (Finset.mem_range.mp hk)) rfl rfl
    _ = 1 := sum_indicator_eq (Nat.mod_lt _ hn)

/-- A sum of a product of two value indicators over their range. -/
theorem sum_pair_indicator {n a b : ℕ} (ha : a < n) :
    ∑ l ∈ Finset.range n, (if a = l then 1 else 0) * (if b = l then 1 else 0) =
      if a = b then (1 : ℕ) else 0 := by
  by_cases hab : a = b
  · subst hab
    rw [if_pos rfl]
    calc ∑ l ∈ Finset.range n, (if a = l then 1 else 0) * (if a = l then 1 else 0)
        = ∑ l ∈ Finset.range n, (if l = a then (1 : ℕ) else 0) :=
          Finset.sum_congr rfl fun l _ => by split_ifs <;> omega
      _ = 1 := sum_indicator_eq ha
  · rw [if_neg hab]
    calc ∑ l ∈ Finset.range n, (if a = l then 1 else 0) * (if b = l then 1 else 0)
        = ∑ l ∈ Finset.range n, 0 :=
          Finset.sum_congr rfl fun l _ => by split_ifs <;> omega
      _ = 0 := Finset.sum_const_zero

/-- A sum of a product of two value indicators, conditions written
index-first. -/
theorem sum_pair_indicator_right {n a b : ℕ} (ha : a < n) :
    ∑ l ∈ Finset.range n, (if l = a then 1 else 0) * (if l = b then 1 else 0) =
      if a = b then (1 : ℕ) else 0 := by
  by_cases hab : a = b
  · subst hab
    rw [if_pos rfl]
    calc ∑ l ∈ Finset.range n, (if l = a then 1 else 0) * (if l = a then 1 else 0)
        = ∑ l ∈ Finset.range n, (if l = a then (1 : ℕ) else 0) :=
          Finset.sum_congr rfl fun l _ => by split_ifs <;> omega
      _ = 1 := sum_indicator_eq ha
  · rw [if_neg hab]
    calc ∑ l ∈ Finset.range n, (if l = a then 1 else 0) * (if l = b then 1 else 0)
        = ∑ l ∈ Finset.range n, 0 :=
          Finset.sum_congr rfl fun l _ => by split_ifs <;> omega
      _ = 0 := Finset.sum_const_zero

/-- For a prime order and distinct block rows `i ≠ i'`, exactly one block
column aligns the two permutation blocks: the congruence
`k + i * j ≡ k' + i' * j (mod n)` has exactly one solution `j` per period. -/
theorem prime_cross_sum {n i i' : ℕ} (hp : n.Prime) (hi : i < n) (hi' : i' < n)
    (hne : i ≠ i') (k k' : ℕ) :
    ∑ j ∈ Finset.range n, (if (k + i * j) % n = (k' + i' * j) % n then 1 else 0) = 1 := by
  haveI : Fact n.Prime := ⟨hp⟩
  haveI : NeZero n := ⟨hp.pos.ne'⟩
  have hD : (i : ZMod n) - (i' : ZMod n) ≠ 0 := by
    intro h
    apply hne
    have h' : (i : ZMod n) = (i' : ZMod n) := by
      rwa [sub_eq_zero] at h
    have hv := congrArg ZMod.val h'
    rwa [ZMod.val_cast_of_lt hi, ZMod.val_cast_of_lt hi'] at hv
  set j0 : ZMod n :=
    ((k' : ZMod n) - (k : ZMod n)) / ((i : ZMod n) - (i' : ZMod n)) with hj0
  have key : ∀ j, j < n → (((k + i * j) % n = (k' + i' * j) % n) ↔ j = j0.val) := by
    intro j hj
    constructor
    · intro h
      have hmod : ((k + i * j : ℕ) : ZMod n) = ((k' + i' * j : ℕ) : ZMod n) :=
        (ZMod.natCast_eq_natCast_iff' _ _ _).mpr h
      push_cast at hmod
      have hsolve : (j : ZMod n) = j0 := by
        rw [hj0, eq_div_iff hD]
        linear_combination hmod
      have hv := congrArg ZMod.val hsolve
      rwa [ZMod.val_cast_of_lt hj] at hv
    · intro h
      subst h
      have hval : ((j0.val : ℕ) : ZMod n) = j0 := ZMod.natCast_rightInverse j0
      have hmul : j0 * ((i : ZMod n) - (i' : ZMod n)) = (k' : ZMod n) - (k : ZMod n) := by
        rw [hj0]
        exact div_mul_cancel₀ _ hD
      apply (ZMod.natCast_eq_natCast_iff' _ _ _).mp
      push_cast
      rw [hval]
      linear_combination hmul
  calc ∑ j ∈ Finset.range n, (if (k + i * j) % n = (k' + i' * j) % n then 1 else 0)
      = ∑ j ∈ Finset.range n, (if j = j0.val then 1 else 0) :=
        Finset.sum_congr rfl fun j hj => if_congr (key j (Finset.mem_range.mp hj)) rfl rfl
    _ = 1 := sum_indicator_eq (ZMod.val_lt j0)

/-- Splitting a sum over all `n² + n + 1` indices into the boundary block and
the kernel blocks. -/
theorem sum_split {n : ℕ} (f : ℕ → ℕ) :
    ∑ x ∈ Finset.range (n ^ 2 + n + 1), f x =
      (∑ x ∈ Finset.range (n + 1), f x) +
        ∑ u ∈ Finset.range n, ∑ v ∈ Finset.range n, f (n + 1 + (u * n + v)) := by
  have hsq : n ^ 2 = n * n := pow_two n
  have h1 : n ^ 2 + n + 1 = (n + 1) + n * n := by omega
  rw [h1, Finset.sum_range_add, sum_range_double]

/-- Distinct kernel indices have distinct block coordinates. -/
theorem kernel_index_inj {n i k i' k' : ℕ} (hn : 0 < n) (hk : k < n) (hk' : k' < n)
    (h : i * n + k = i' * n + k') : i = i' ∧ k = k' := by
  have h1 := kernel_decode (u := i) hn hk
  have h2 := kernel_decode (u := i') hn hk'
  rw [h] at h1
  exact ⟨by omega, by omega⟩

/-- Refined three-way decomposition of an index below `n² + n + 1`. -/
theorem index_cases3 {n x : ℕ} (hx : x < n ^ 2 + n + 1) :
    x = 0 ∨ (1 ≤ x ∧ x ≤ n) ∨ ∃ u v, u < n ∧ v < n ∧ x = n + 1 + (u * n + v) := by
  rcases index_cases hx with h | h
  · rcases Nat.eq_zero_or_pos x with h0 | h0
    · exact Or.inl h0
    · exact Or.inr (Or.inl ⟨h0, h⟩)
  · exact Or.inr (Or.inr h)

/-- A constant sum over a range. -/
theorem sum_const_range {n a : ℕ} : ∑ _v ∈ Finset.range n, a = n * a := by
  rw [Finset.sum_const, Finset.card_range, smul_eq_mul]

/-- Inner product of row `0` with itself. -/
theorem ip_row0_row0 {n : ℕ} :
    ∑ c ∈ Finset.range (n ^ 2 + n + 1),
        incidence_entry n 0 c * incidence_entry n 0 c = n + 1 := by
  rw [sum_split]
  have h1 : ∑ c ∈ Finset.range (n + 1),
      incidence_entry n 0 c * incidence_entry n 0 c = n + 1 := by
    calc ∑ c ∈ Finset.range (n + 1), incidence_entry n 0 c * incidence_entry n 0 c
        = ∑ _c ∈ Finset.range (n + 1), 1 := by
          refine Finset.sum_congr rfl fun c hc => ?_
          rw [entry_row0_left (Nat.lt_succ_iff.mp (Finset.mem_range.mp hc))]
      _ = n + 1 := by simp
  have h2 : ∑ u ∈ Finset.range n, ∑ v ∈ Finset.range n,
      incidence_entry n 0 (n + 1 + (u * n + v)) *
        incidence_entry n 0 (n + 1 + (u * n + v)) = 0 := by
    refine Finset.sum_eq_zero fun u _ => Finset.sum_eq_zero fun v _ => ?_
    rw [entry_row0_kernel, zero_mul]
  rw [h1, h2]

/-- Inner product of row `0` with a boundary row `1 .. n`. -/
theorem ip_row0_rows {n s : ℕ} (hs1 : 1 ≤ s) (hs2 : s ≤ n) :
    ∑ c ∈ Finset.range (n ^ 2 + n + 1),
        incidence_entry n 0 c * incidence_entry n s c = 1 := by
  rw [sum_split]
  have h1 : ∑ c ∈ Finset.range (n + 1),
      incidence_entry n 0 c * incidence_entry n s c = 1 := by
    calc ∑ c ∈ Finset.range (n + 1), incidence_entry n 0 c * incidence_entry n s c
        = ∑ c ∈ Finset.range (n + 1), (if c = 0 then 1 else 0) := by
          refine Finset.sum_congr rfl fun c hc => ?_
          have hcn : c ≤ n := Nat.lt_succ_iff.mp (Finset.mem_range.mp hc)
          rw [entry_row0_left hcn, entry_rows_left hs1 hs2 hcn, one_mul]
      _ = 1 := sum_indicator_eq (by omega)
  have h2 : ∑ u ∈ Finset.range n, ∑ v ∈ Finset.range n,
      incidence_entry n 0 (n + 1 + (u * n + v)) *
        incidence_entry n s (n + 1 + (u * n + v)) = 0 := by
    refine Finset.sum_eq_zero fun u _ => Finset.sum_eq_zero fun v _ => ?_
    rw [entry_row0_kernel, zero_mul]
  rw [h1, h2]

/-- Inner product of row `0` with a kernel row. -/
theorem ip_row0_kernel {n i k : ℕ} (hi : i < n) (hk : k < n) :
    ∑ c ∈ Finset.range (n ^ 2 + n + 1),
        incidence_entry n 0 c * incidence_entry n (n + 1 + (i * n + k)) c = 1 := by
  rw [sum_split]
  have h1 : ∑ c ∈ Finset.range (n + 1),
      incidence_entry n 0 c * incidence_entry n (n + 1 + (i * n + k)) c = 1 := by
    calc ∑ c ∈ Finset.range (n + 1),
        incidence_entry n 0 c * incidence_entry n (n + 1 + (i * n + k)) c
        = ∑ c ∈ Finset.range (n + 1), (if c = i + 1 then 1 else 0) := by
          refine Finset.sum_congr rfl fun c hc => ?_
          have hcn : c ≤ n := Nat.lt_succ_iff.mp (Finset.mem_range.mp hc)
          rw [entry_row0_left hcn, entry_kernel_left hi hk hcn, one_mul]
      _ = 1 := sum_indicator_eq (by omega)
  have h2 : ∑ u ∈ Finset.range n, ∑ v ∈ Finset.range n,
      incidence_entry n 0 (n + 1 + (u * n + v)) *
        incidence_entry n (n + 1 + (i * n + k)) (n + 1 + (u * n + v)) = 0 := by
    refine Finset.sum_eq_zero fun u _ => Finset.sum_eq_zero fun v _ => ?_
    rw [entry_row0_kernel, zero_mul]
  rw [h1, h2]

/-- Inner product of two boundary rows `1 .. n`. -/
theorem ip_rows_rows {n r s : ℕ} (hr1 : 1 ≤ r) (hr2 : r ≤ n)
    (hs1 : 1 ≤ s) (hs2 : s ≤ n) :
    ∑ c ∈ Finset.range (n ^ 2 + n + 1),
        incidence_entry n r c * incidence_entry n s c =
      n * (if r = s then 1 else 0) + 1 := by
  rw [sum_split]
  have h1 : ∑ c ∈ Finset.range (n + 1),
      incidence_entry n r c * incidence_entry n s c = 1 := by
    calc ∑ c ∈ Finset.range (n + 1), incidence_entry n r c * incidence_entry n s c
        = ∑ c ∈ Finset.range (n + 1), (if c = 0 then 1 else 0) * (if c = 0 then 1 else 0) := by
          refine Finset.sum_congr rfl fun c hc => ?_
          have hcn : c ≤ n := Nat.lt_succ_iff.mp (Finset.mem_range.mp hc)
          rw [entry_rows_left hr1 hr2 hcn, entry_rows_left hs1 hs2 hcn]
      _ = if (0 : ℕ) = 0 then 1 else 0 := sum_pair_indicator_right (by omega)
      _ = 1 := if_pos rfl
  have h2 : ∑ u ∈ Finset.range n, ∑ v ∈ Finset.range n,
      incidence_entry n r (n + 1 + (u * n + v)) *
        incidence_entry n s (n + 1 + (u * n + v)) =
      n * (if r = s then 1 else 0) := by
    calc ∑ u ∈ Finset.range n, ∑ v ∈ Finset.range n,
        incidence_entry n r (n + 1 + (u * n + v)) *
          incidence_entry n s (n + 1 + (u * n + v))
        = ∑ u ∈ Finset.range n, ∑ _v ∈ Finset.range n,
            (if u = r - 1 then 1 else 0) * (if u = s - 1 then 1 else 0) :=
          Finset.sum_congr rfl fun u _ => Finset.sum_congr rfl fun v hv => by
            rw [entry_rows_kernel hr1 hr2 (Finset.mem_range.mp hv),
              entry_rows_kernel hs1 hs2 (Finset.mem_range.mp hv)]
      _ = ∑ u ∈ Finset.range n,
            n * ((if u = r - 1 then 1 else 0) * (if u = s - 1 then 1 else 0)) :=
          Finset.sum_congr rfl fun u _ => sum_const_range
      _ = n * ∑ u ∈ Finset.range n,
            (if u = r - 1 then 1 else 0) * (if u = s - 1 then 1 else 0) := by
          rw [Finset.mul_sum]
      _ = n * (if r - 1 = s - 1 then 1 else 0) := by
          rw [sum_pair_indicator_right (by omega)]
      _ = n * (if r = s then 1 else 0) := by
          congr 1
          exact if_congr (by omega) rfl rfl
  rw [h1, h2]
  exact Nat.add_comm _ _

/-- Inner product of a boundary row `1 .. n` with a kernel row. -/
theorem ip_rows_kernel {n r i k : ℕ} (hn : 0 < n) (hr1 : 1 ≤ r) (hr2 : r ≤ n)
    (hi : i < n) (hk : k < n) :
    ∑ c ∈ Finset.range (n ^ 2 + n + 1),
        incidence_entry n r c * incidence_entry n (n + 1 + (i * n + k)) c = 1 := by
  rw [sum_split]
  have h1 : ∑ c ∈ Finset.range (n + 1),
      incidence_entry n r c * incidence_entry n (n + 1 + (i * n + k)) c = 0 := by
    calc ∑ c ∈ Finset.range (n + 1),
        incidence_entry n r c * incidence_entry n (n + 1 + (i * n + k)) c
        = ∑ c ∈ Finset.range (n + 1),
            (if c = 0 then 1 else 0) * (if c = i + 1 then 1 else 0) := by
          refine Finset.sum_congr rfl fun c hc => ?_
          have hcn : c ≤ n := Nat.lt_succ_iff.mp (Finset.mem_range.mp hc)
          rw [entry_rows_left hr1 hr2 hcn, entry_kernel_left hi hk hcn]
      _ = if (0 : ℕ) = i + 1 then 1 else 0 := sum_pair_indicator_right (by omega)
      _ = 0 := if_neg (by omega)
  have h2 : ∑ u ∈ Finset.range n, ∑ v ∈ Finset.range n,
      incidence_entry n r (n + 1 + (u * n + v)) *
        incidence_entry n (n + 1 + (i * n + k)) (n + 1 + (u * n + v)) = 1 := by
    calc ∑ u ∈ Finset.range n, ∑ v ∈ Finset.range n,
        incidence_entry n r (n + 1 + (u * n + v)) *
          incidence_entry n (n + 1 + (i * n + k)) (n + 1 + (u * n + v))
        = ∑ u ∈ Finset.range n, ∑ v ∈ Finset.range n,
            (if u = r - 1 then 1 else 0) * (if (k + i * u) % n = v then 1 else 0) :=
          Finset.sum_congr rfl fun u hu => Finset.sum_congr rfl fun v hv => by
            rw [entry_rows_kernel hr1 hr2 (Finset.mem_range.mp hv),
              entry_kernel_kernel hn hi hk (Finset.mem_range.mp hu) (Finset.mem_range.mp hv)]
      _ = ∑ u ∈ Finset.range n,
            (if u = r - 1 then 1 else 0) *
              ∑ v ∈ Finset.range n, (if (k + i * u) % n = v then 1 else 0) :=
          Finset.sum_congr rfl fun u _ => by rw [Finset.mul_sum]
      _ = ∑ u ∈ Finset.range n, (if u = r - 1 then 1 else 0) :=
          Finset.sum_congr rfl fun u _ => by rw [sum_mod_indicator hn, Nat.mul_one]
      _ = 1 := sum_indicator_eq (by omega)
  rw [h1, h2]

/-- Inner product of two kernel rows: the prime case of the Bruck–Ryser
identity. -/
theorem ip_kernel_kernel {n i k i' k' : ℕ} (hp : n.Prime) (hi : i < n) (hk : k < n)
    (hi' : i' < n) (hk' : k' < n) :
    ∑ c ∈ Finset.range (n ^ 2 + n + 1),
        incidence_entry n (n + 1 + (i * n + k)) c *
          incidence_entry n (n + 1 + (i' * n + k')) c =
      n * (if i = i' ∧ k = k' then 1 else 0) + 1 := by
  have hn : 0 < n := hp.pos
  rw [sum_split]
  have h1 : ∑ c ∈ Finset.range (n + 1),
      incidence_entry n (n + 1 + (i * n + k)) c *
        incidence_entry n (n + 1 + (i' * n + k')) c = if i = i' then 1 else 0 := by
    calc ∑ c ∈ Finset.range (n + 1),
        incidence_entry n (n + 1 + (i * n + k)) c *
          incidence_entry n (n + 1 + (i' * n + k')) c
        = ∑ c ∈ Finset.range (n + 1),
            (if c = i + 1 then 1 else 0) * (if c = i' + 1 then 1 else 0) := by
          refine Finset.sum_congr rfl fun c hc => ?_
          have hcn : c ≤ n := Nat.lt_succ_iff.mp (Finset.mem_range.mp hc)
          rw [entry_kernel_left hi hk hcn, entry_kernel_left hi' hk' hcn]
      _ = if i + 1 = i' + 1 then 1 else 0 := sum_pair_indicator_right (by omega)
      _ = if i = i' then 1 else 0 := if_congr (by omega) rfl rfl
  have h2 : ∑ u ∈ Finset.range n, ∑ v ∈ Finset.range n,
      incidence_entry n (n + 1 + (i * n + k)) (n + 1 + (u * n + v)) *
        incidence_entry n (n + 1 + (i' * n + k')) (n + 1 + (u * n + v)) =
      ∑ u ∈ Finset.range n, (if (k + i * u) % n = (k' + i' * u) % n then 1 else 0) := by
    calc ∑ u ∈ Finset.range n, ∑ v ∈ Finset.range n,
        incidence_entry n (n + 1 + (i * n + k)) (n + 1 + (u * n + v)) *
          incidence_entry n (n + 1 + (i' * n + k')) (n + 1 + (u * n + v))
        = ∑ u ∈ Finset.range n, ∑ v ∈ Finset.range n,
            (if (k + i * u) % n = v then 1 else 0) *
              (if (k' + i' * u) % n = v then 1 else 0) :=
          Finset.sum_congr rfl fun u hu => Finset.sum_congr rfl fun v hv => by
            rw [entry_kernel_kernel hn hi hk (Finset.mem_range.mp hu) (Finset.mem_range.mp hv),
              entry_kernel_kernel hn hi' hk' (Finset.mem_range.mp hu) (Finset.mem_range.mp hv)]
      _ = ∑ u ∈ Finset.range n, (if (k + i * u) % n = (k' + i' * u) % n then 1 else 0) :=
          Finset.sum_congr rfl fun u _ => sum_pair_indicator (Nat.mod_lt _ hn)
  rw [h1, h2]
  by_cases hii : i = i'
  · subst hii
    by_cases hkk : k = k'
    · subst hkk
      have h3 : ∑ u ∈ Finset.range n,
          (if (k + i * u) % n = (k + i * u) % n then 1 else 0) = n := by
        calc ∑ u ∈ Finset.range n, (if (k + i * u) % n = (k + i * u) % n then 1 else 0)
            = ∑ _u ∈ Finset.range n, 1 :=
              Finset.sum_congr rfl fun u _ => if_pos rfl
          _ = n := by simp
      rw [h3, if_pos rfl, if_pos ⟨rfl, rfl⟩]
      omega
    · have h3 : ∑ u ∈ Finset.range n,
          (if (k + i * u) % n = (k' + i * u) % n then 1 else 0) = 0 := by
        refine Finset.sum_eq_zero fun u _ => ?_
        rw [if_neg]
        intro hcon
        have hmeq : k % n = k' % n := Nat.ModEq.add_right_cancel' (i * u) hcon
        rw [Nat.mod_eq_of_lt hk, Nat.mod_eq_of_lt hk'] at hmeq
        exact hkk hmeq
      rw [h3, if_pos rfl, if_neg (by simp [hkk])]
      omega
  · have h3 := prime_cross_sum hp hi hi' hii k k'
    rw [h3, if_neg hii, if_neg (by simp [hii])]
    omega

/-- Inner product of any two rows of the incidence matrix of a prime order:
the Bruck–Ryser identity `M · Mᵗ = n·I + J`, entrywise. -/
theorem incidence_inner_product {n r s : ℕ} (hp : n.Prime)
    (hr : r < n ^ 2 + n + 1) (hs : s < n ^ 2 + n + 1) :
    ∑ c ∈ Finset.range (n ^ 2 + n + 1),
        incidence_entry n r c * incidence_entry n s c =
      n * (if r = s then 1 else 0) + 1 := by
  have hn : 0 < n := hp.pos
  have hcomm : ∀ a b : ℕ,
      ∑ c ∈ Finset.range (n ^ 2 + n + 1), incidence_entry n a c * incidence_entry n b c =
        ∑ c ∈ Finset.range (n ^ 2 + n + 1), incidence_entry n b c * incidence_entry n a c :=
    fun a b => Finset.sum_congr rfl fun c _ => Nat.mul_comm _ _
  rcases index_cases3 hr with hr0 | ⟨hr1, hr2⟩ | ⟨i, k, hi, hk, hre⟩
  · subst hr0
    rcases index_cases3 hs with hs0 | ⟨hs1, hs2⟩ | ⟨i', k', hi', hk', hse⟩
    · subst hs0
      rw [ip_row0_row0, if_pos rfl]
      omega
    · rw [ip_row0_rows hs1 hs2, if_neg (by omega)]
      omega
    · subst hse
      rw [ip_row0_kernel hi' hk', if_neg (by omega)]
      omega
  · rcases index_cases3 hs with hs0 | ⟨hs1, hs2⟩ | ⟨i', k', hi', hk', hse⟩
    · subst hs0
      rw [hcomm, ip_row0_rows hr1 hr2, if_neg (by omega)]
      omega
    · exact ip_rows_rows hr1 hr2 hs1 hs2
    · subst hse
      rw [ip_rows_kernel hn hr1 hr2 hi' hk', if_neg (by omega)]
      omega
  · subst hre
    rcases index_cases3 hs with hs0 | ⟨hs1, hs2⟩ | ⟨i', k', hi', hk', hse⟩
    · subst hs0
      rw [hcomm, ip_row0_kernel hi hk, if_neg (by omega)]
      omega
    · rw [hcomm, ip_rows_kernel hn hs1 hs2 hi hk, if_neg (by omega)]
      omega
    · subst hse
      have hiff : (n + 1 + (i * n + k) = n + 1 + (i' * n + k')) ↔ (i = i' ∧ k = k') := by
        constructor
        · intro h
          exact kernel_index_inj hn hk hk' (by omega)
        · rintro ⟨rfl, rfl⟩
          rfl
      have e : (if n + 1 + (i * n + k) = n + 1 + (i' * n + k') then (1 : ℕ) else 0) =
          (if i = i' ∧ k = k' then 1 else 0) := if_congr hiff rfl rfl
      rw [e, ip_kernel_kernel hp hi hk hi' hk']

/-- Every row of the incidence matrix has exactly `n + 1` ones. -/
theorem incidence_row_sum {n r : ℕ} (hn : 0 < n) (hr : r < n ^ 2 + n + 1) :
    ∑ c ∈ Finset.range (n ^ 2 + n + 1), incidence_entry n r c = n + 1 := by
  rw [sum_split]
  rcases index_cases3 hr with hr0 | ⟨hr1, hr2⟩ | ⟨i, k, hi, hk, hre⟩
  · subst hr0
    have h1 : ∑ c ∈ Finset.range (n + 1), incidence_entry n 0 c = n + 1 := by
      calc ∑ c ∈ Finset.range (n + 1), incidence_entry n 0 c
          = ∑ _c ∈ Finset.range (n + 1), 1 :=
            Finset.sum_congr rfl fun c hc =>
              entry_row0_left (Nat.lt_succ_iff.mp (Finset.mem_range.mp hc))
        _ = n + 1 := by simp
    have h2 : ∑ u ∈ Finset.range n, ∑ v ∈ Finset.range n,
        incidence_entry n 0 (n + 1 + (u * n + v)) = 0 :=
      Finset.sum_eq_zero fun u _ => Finset.sum_eq_zero fun v _ => entry_row0_kernel
    rw [h1, h2]
  · have h1 : ∑ c ∈ Finset.range (n + 1), incidence_entry n r c = 1 := by
      calc ∑ c ∈ Finset.range (n + 1), incidence_entry n r c
          = ∑ c ∈ Finset.range (n + 1), (if c = 0 then 1 else 0) :=
            Finset.sum_congr rfl fun c hc =>
              entry_rows_left hr1 hr2 (Nat.lt_succ_iff.mp (Finset.mem_range.mp hc))
        _ = 1 := sum_indicator_eq (by omega)
    have h2 : ∑ u ∈ Finset.range n, ∑ v ∈ Finset.range n,
        incidence_entry n r (n + 1 + (u * n + v)) = n := by
      calc ∑ u ∈ Finset.range n, ∑ v ∈ Finset.range n,
          incidence_entry n r (n + 1 + (u * n + v))
          = ∑ u ∈ Finset.range n, ∑ _v ∈ Finset.range n, (if u = r - 1 then 1 else 0) :=
            Finset.sum_congr rfl fun u _ => Finset.sum_congr rfl fun v hv =>
              entry_rows_kernel hr1 hr2 (Finset.mem_range.mp hv)
        _ = ∑ u ∈ Finset.range n, n * (if u = r - 1 then 1 else 0) :=
            Finset.sum_congr rfl fun u _ => sum_const_range
        _ = n * ∑ u ∈ Finset.range n, (if u = r - 1 then 1 else 0) := by
            rw [Finset.mul_sum]
        _ = n := by
            rw [sum_indicator_eq (show r - 1 < n by omega), Nat.mul_one]
    rw [h1, h2]
    omega
  · subst hre
    have h1 : ∑ c ∈ Finset.range (n + 1),
        incidence_entry n (n + 1 + (i * n + k)) c = 1 := by
      calc ∑ c ∈ Finset.range (n + 1), incidence_entry n (n + 1 + (i * n + k)) c
          = ∑ c ∈ Finset.range (n + 1), (if c = i + 1 then 1 else 0) :=
            Finset.sum_congr rfl fun c hc =>
              entry_kernel_left hi hk (Nat.lt_succ_iff.mp (Finset.mem_range.mp hc))
        _ = 1 := sum_indicator_eq (by omega)
    have h2 : ∑ u ∈ Finset.range n, ∑ v ∈ Finset.range n,
        incidence_entry n (n + 1 + (i * n + k)) (n + 1 + (u * n + v)) = n := by
      calc ∑ u ∈ Finset.range n, ∑ v ∈ Finset.range n,
          incidence_entry n (n + 1 + (i * n + k)) (n + 1 + (u * n + v))
          = ∑ u ∈ Finset.range n, ∑ v ∈ Finset.range n,
              (if (k + i * u) % n = v then 1 else 0) :=
            Finset.sum_congr rfl fun u hu => Finset.sum_congr rfl fun v hv =>
              entry_kernel_kernel hn hi hk (Finset.mem_range.mp hu) (Finset.mem_range.mp hv)
        _ = ∑ _u ∈ Finset.range n, 1 :=
            Finset.sum_congr rfl fun u _ => sum_mod_indicator hn _
        _ = n := by simp
    rw [h1, h2]
    omega

/-- Every column of the incidence matrix has exactly `n + 1` ones. -/
theorem incidence_col_sum {n c : ℕ} (hn : 0 < n) (hc : c < n ^ 2 + n + 1) :
    ∑ r ∈ Finset.range (n ^ 2 + n + 1), incidence_entry n r c = n + 1 := by
  rw [sum_split]
  rcases index_cases3 hc with hc0 | ⟨hc1, hc2⟩ | ⟨j, l, hj, hl, hce⟩
  · subst hc0
    have h1 : ∑ r ∈ Finset.range (n + 1), incidence_entry n r 0 = n + 1 := by
      calc ∑ r ∈ Finset.range (n + 1), incidence_entry n r 0
          = ∑ _r ∈ Finset.range (n + 1), 1 := by
            refine Finset.sum_congr rfl fun r hr => ?_
            have hrn : r ≤ n := Nat.lt_succ_iff.mp (Finset.mem_range.mp hr)
            rcases Nat.eq_zero_or_pos r with h0 | h0
            · subst h0
              exact entry_row0_left (by omega)
            · rw [entry_rows_left h0 hrn (by omega), if_pos rfl]
        _ = n + 1 := by simp
    have h2 : ∑ u ∈ Finset.range n, ∑ v ∈ Finset.range n,
        incidence_entry n (n + 1 + (u * n + v)) 0 = 0 := by
      refine Finset.sum_eq_zero fun u hu => Finset.sum_eq_zero fun v hv => ?_
      rw [entry_kernel_left (Finset.mem_range.mp hu) (Finset.mem_range.mp hv) (by omega),
        if_neg (by omega)]
    rw [h1, h2]
  · have h1 : ∑ r ∈ Finset.range (n + 1), incidence_entry n r c = 1 := by
      calc ∑ r ∈ Finset.range (n + 1), incidence_entry n r c
          = ∑ r ∈ Finset.range (n + 1), (if r = 0 then 1 else 0) := by
            refine Finset.sum_congr rfl fun r hr => ?_
            have hrn : r ≤ n := Nat.lt_succ_iff.mp (Finset.mem_range.mp hr)
            rcases Nat.eq_zero_or_pos r with h0 | h0
            · subst h0
              rw [entry_row0_left hc2, if_pos rfl]
            · rw [entry_rows_left h0 hrn hc2, if_neg (by omega), if_neg (by omega)]
        _ = 1 := sum_indicator_eq (by omega)
    have h2 : ∑ u ∈ Finset.range n, ∑ v ∈ Finset.range n,
        incidence_entry n (n + 1 + (u * n + v)) c = n := by
      calc ∑ u ∈ Finset.range n, ∑ v ∈ Finset.range n,
          incidence_entry n (n + 1 + (u * n + v)) c
          = ∑ u ∈ Finset.range n, ∑ _v ∈ Finset.range n, (if c = u + 1 then 1 else 0) :=
            Finset.sum_congr rfl fun u hu => Finset.sum_congr rfl fun v hv =>
              entry_kernel_left (Finset.mem_range.mp hu) (Finset.mem_range.mp hv) hc2
        _ = ∑ u ∈ Finset.range n, n * (if c = u + 1 then 1 else 0) :=
            Finset.sum_congr rfl fun u _ => sum_const_range
        _ = n * ∑ u ∈ Finset.range n, (if c = u + 1 then 1 else 0) := by
            rw [Finset.mul_sum]
        _ = n * ∑ u ∈ Finset.range n, (if u = c - 1 then 1 else 0) := by
            refine congrArg (n * ·) (Finset.sum_congr rfl fun u _ => ?_)
            exact if_congr (by omega) rfl rfl
        _ = n := by
            rw [sum_indicator_eq (show c - 1 < n by omega), Nat.mul_one]
    rw [h1, h2]
    omega
  · subst hce
    have h1 : ∑ r ∈ Finset.range (n + 1),
        incidence_entry n r (n + 1 + (j * n + l)) = 1 := by
      calc ∑ r ∈ Finset.range (n + 1), incidence_entry n r (n + 1 + (j * n + l))
          = ∑ r ∈ Finset.range (n + 1), (if r = j + 1 then 1 else 0) := by
            refine Finset.sum_congr rfl fun r hr => ?_
            have hrn : r ≤ n := Nat.lt_succ_iff.mp (Finset.mem_range.mp hr)
            rcases Nat.eq_zero_or_pos r with h0 | h0
            · subst h0
              rw [entry_row0_kernel, if_neg (by omega)]
            · rw [entry_rows_kernel h0 hrn hl]
              exact if_congr (by omega) rfl rfl
        _ = 1 := sum_indicator_eq (by omega)
    have h2 : ∑ u ∈ Finset.range n, ∑ v ∈ Finset.range n,
        incidence_entry n (n + 1 + (u * n + v)) (n + 1 + (j * n + l)) = n := by
      calc ∑ u ∈ Finset.range n, ∑ v ∈ Finset.range n,
          incidence_entry n (n + 1 + (u * n + v)) (n + 1 + (j * n + l))
          = ∑ u ∈ Finset.range n, ∑ v ∈ Finset.range n,
              (if (v + u * j) % n = l then 1 else 0) :=
            Finset.sum_congr rfl fun u hu => Finset.sum_congr rfl fun v hv =>
              entry_kernel_kernel hn (Finset.mem_range.mp hu) (Finset.mem_range.mp hv) hj hl
        _ = ∑ _u ∈ Finset.range n, 1 :=
            Finset.sum_congr rfl fun u _ => sum_shift_mod_indicator hn hl
        _ = n := by simp
    rw [h1, h2]
    omega

/-- Every entry of the incidence matrix is `0` or `1`. -/
theorem incidence_entry_zero_or_one {n r c : ℕ} (hn : 0 < n)
    (hr : r < n ^ 2 + n + 1) (hc : c < n ^ 2 + n + 1) :
    incidence_entry n r c = 0 ∨ incidence_entry n r c = 1 := by
  rcases index_cases3 hr with hr0 | ⟨hr1, hr2⟩ | ⟨i, k, hi, hk, hre⟩
  · subst hr0
    rcases index_cases3 hc with hc0 | ⟨hc1, hc2⟩ | ⟨j, l, hj, hl, hce⟩
    · subst hc0
      rw [entry_row0_left (by omega)]
      exact Or.inr rfl
    · rw [entry_row0_left hc2]
      exact Or.inr rfl
    · subst hce
      rw [entry_row0_kernel]
      exact Or.inl rfl
  · rcases index_cases3 hc with hc0 | ⟨hc1, hc2⟩ | ⟨j, l, hj, hl, hce⟩
    · subst hc0
      rw [entry_rows_left hr1 hr2 (by omega)]
      split_ifs <;> simp
    · rw [entry_rows_left hr1 hr2 hc2]
      split_ifs <;> simp
    · subst hce
      rw [entry_rows_kernel hr1 hr2 hl]
      split_ifs <;> simp
  · subst hre
    rcases index_cases3 hc with hc0 | ⟨hc1, hc2⟩ | ⟨j, l, hj, hl, hce⟩
    · subst hc0
      rw [entry_kernel_left hi hk (by omega)]
      split_ifs <;> simp
    · rw [entry_kernel_left hi hk hc2]
      split_ifs <;> simp
    · subst hce
      rw [entry_kernel_kernel hn hi hk hj hl]
      split_ifs <;> simp

/-- The trial-division loop of `utils.is_prime` returns true exactly on
integers `> 1` with no divisor in `[2, ⌊√x⌋]`. -/
theorem is_prime_eq_true_iff (q : ℚ) :
    is_prime q = true ↔
      (q.den = 1 ∧ 1 < q.num ∧
        ∀ d : ℤ, 2 ≤ d → d ≤ (Nat.sqrt q.num.toNat : ℤ) → ¬ d ∣ q.num) := by
  rw [is_prime]
  split_ifs with h
  · obtain ⟨hint, hlt⟩ := h
    have hden : q.den = 1 := by
      rwa [is_integer, beq_iff_eq] at hint
    have hq : (q.num : ℚ) = q := Rat.coe_int_num_of_den_eq_one hden
    have hnum : 1 < q.num := by
      rw [← hq] at hlt
      exact_mod_cast hlt
    have hm1 : 1 ≤ Nat.sqrt q.num.toNat := by
      have h2 := Nat.sqrt_le_sqrt (show 1 ≤ q.num.toNat by omega)
      rwa [Nat.sqrt_one] at h2
    simp only [List.all_eq_true, List.mem_range'_1, decide_eq_true_eq]
    constructor
    · intro hall
      refine ⟨hden, hnum, ?_⟩
      intro d h2 hle hdvd
      have hd : (d.toNat : ℤ) = d := Int.toNat_of_nonneg (by omega)
      exact hall d.toNat ⟨by omega, by omega⟩
        (by rw [hd]; exact Int.emod_eq_zero_of_dvd hdvd)
    · rintro ⟨-, -, hdiv⟩
      intro i hi h0
      refine hdiv (i : ℤ) (by exact_mod_cast hi.1) ?_ (Int.dvd_of_emod_eq_zero h0)
      have hile : i ≤ Nat.sqrt q.num.toNat := by omega
      exact_mod_cast hile
  · constructor
    · intro hfalse
      exact absurd hfalse (by simp)
    · rintro ⟨hden, hnum, -⟩
      exfalso
      apply h
      refine ⟨by rw [is_integer, beq_iff_eq]; exact hden, ?_⟩
      have hq : (q.num : ℚ) = q := Rat.coe_int_num_of_den_eq_one hden
      rw [← hq]
      exact_mod_cast hnum

/-- On natural-number inputs the trial division decides primality. -/
theorem is_prime_natCast_iff (m : ℕ) : is_prime ((m : ℤ) : ℚ) = true ↔ m.Prime := by
  rw [is_prime_eq_true_iff]
  have h2 : (((m : ℤ) : ℚ)).num = (m : ℤ) := Rat.num_intCast m
  have h1 : (((m : ℤ) : ℚ)).den = 1 := Rat.den_intCast m
  rw [h2, h1, Int.toNat_natCast]
  constructor
  · rintro ⟨-, hlt, hdiv⟩
    have hm : 1 < m := by exact_mod_cast hlt
    rw [Nat.prime_def_le_sqrt]
    refine ⟨by omega, fun d h2d hdle hdvd => ?_⟩
    exact hdiv (d : ℤ) (by exact_mod_cast h2d) (by exact_mod_cast hdle)
      (by exact_mod_cast hdvd)
  · intro hm
    obtain ⟨h2m, hdiv⟩ := Nat.prime_def_le_sqrt.mp hm
    refine ⟨rfl, by exact_mod_cast (show 1 < m by omega), ?_⟩
    intro d h2d hdle hdvd
    have hd0 : (0 : ℤ) ≤ d := by omega
    have hdle' : d.toNat ≤ Nat.sqrt m := by omega
    refine hdiv d.toNat (by omega) hdle' ?_
    have hcast : (d.toNat : ℤ) = d := Int.toNat_of_nonneg hd0
    have hdvd' : (d.toNat : ℤ) ∣ (m : ℤ) := by
      rw [hcast]
      exact hdvd
    exact_mod_cast hdvd'

/-- At a prime order the constructor returns the assembled incidence matrix
(the attribute lookup of the kernel table is short-circuited away, and every
generated permutation passes the builder's validation). -/
theorem compute_incidence_matrix_prime_ok {n : ℕ} (hp : n.Prime) :
    compute_incidence_matrix (n : ℤ) = .ok (incidence_matrix_list n) := by
  have hn : 0 < n := hp.pos
  rw [compute_incidence_matrix, Int.toNat_natCast]
  split_ifs with h1 h2
  · rfl
  · exfalso
    apply h2
    simp only [List.all_eq_true]
    intro i _ j _
    obtain ⟨m, hm⟩ := fpp_block_ok (n := n) (i := i) (j := j) hn
    simp only [hm]
  · exact absurd ((is_prime_natCast_iff n).mpr hp) h1

/-- Reading an in-range element through `getD` is reading through `get`. -/
theorem getD_eq_get {α : Type} (l : List α) (d : α) {r : ℕ} (h : r < l.length) :
    l.getD r d = l.get ⟨r, h⟩ := by
  rw [List.getD_eq_getElem?_getD, List.getElem?_eq_getElem h]
  rfl

/-- The assembled matrix has `n² + n + 1` rows. -/
theorem incidence_matrix_list_length (n : ℕ) :
    (incidence_matrix_list n).length = n ^ 2 + n + 1 := by
  simp [incidence_matrix_list]

/-- Every row of the assembled matrix has `n² + n + 1` entries. -/
theorem incidence_matrix_list_row_length {n : ℕ} :
    ∀ row ∈ incidence_matrix_list n, row.length = n ^ 2 + n + 1 := by
  intro row hrow
  rw [incidence_matrix_list, List.mem_map] at hrow
  obtain ⟨r, -, rfl⟩ := hrow
  simp

/-- Entries of the assembled matrix are the closed-form entries. -/
theorem incidence_matrix_list_entry {n r c : ℕ} (hr : r < n ^ 2 + n + 1)
    (hc : c < n ^ 2 + n + 1) :
    matrixEntry (incidence_matrix_list n) r c = incidence_entry n r c := by
  rw [matrixEntry, incidence_matrix_list, getD_map_range _ hr, getD_map_range _ hc]

/-- C1: for every prime order `n`, `compute_incidence_matrix n` returns a
binary matrix of shape `(n² + n + 1) × (n² + n + 1)` satisfying
`M · Mᵗ = n·I + J` exactly — entrywise, the inner product of rows `r` and `s`
is `n·[r = s] + 1` — and every row and every column sums to exactly
`n + 1`. -/
theorem claim_C1 (n : ℕ) (hp : n.Prime) :
    ∃ M : List (List ℕ),
      compute_incidence_matrix (n : ℤ) = .ok M ∧
      M.length = n ^ 2 + n + 1 ∧
      (∀ row ∈ M, row.length = n ^ 2 + n + 1) ∧
      (∀ r < n ^ 2 + n + 1, ∀ c < n ^ 2 + n + 1,
        matrixEntry M r c = 0 ∨ matrixEntry M r c = 1) ∧
      (∀ r < n ^ 2 + n + 1, ∀ s < n ^ 2 + n + 1,
        ∑ c ∈ Finset.range (n ^ 2 + n + 1), matrixEntry M r c * matrixEntry M s c =
          n * (if r = s then 1 else 0) + 1) ∧
      (∀ r < n ^ 2 + n + 1,
        ∑ c ∈ Finset.range (n ^ 2 + n + 1), matrixEntry M r c = n + 1) ∧
      (∀ c < n ^ 2 + n + 1,
        ∑ r ∈ Finset.range (n ^ 2 + n + 1), matrixEntry M r c = n + 1) := by
  have hn : 0 < n := hp.pos
  refine ⟨incidence_matrix_list n, compute_incidence_matrix_prime_ok hp,
    incidence_matrix_list_length n, incidence_matrix_list_row_length, ?_, ?_, ?_, ?_⟩
  · intro r hr c hc
    rw [incidence_matrix_list_entry hr hc]
    exact incidence_entry_zero_or_one hn hr hc
  · intro r hr s hs
    calc ∑ c ∈ Finset.range (n ^ 2 + n + 1),
        matrixEntry (incidence_matrix_list n) r c * matrixEntry (incidence_matrix_list n) s c
        = ∑ c ∈ Finset.range (n ^ 2 + n + 1), incidence_entry n r c * incidence_entry n s c :=
          Finset.sum_congr rfl fun c hc => by
            rw [incidence_matrix_list_entry hr (Finset.mem_range.mp hc),
              incidence_matrix_list_entry hs (Finset.mem_range.mp hc)]
      _ = n * (if r = s then 1 else 0) + 1 := incidence_inner_product hp hr hs
  · intro r hr
    calc ∑ c ∈ Finset.range (n ^ 2 + n + 1), matrixEntry (incidence_matrix_list n) r c
        = ∑ c ∈ Finset.range (n ^ 2 + n + 1), incidence_entry n r c :=
          Finset.sum_congr rfl fun c hc => by
            rw [incidence_matrix_list_entry hr (Finset.mem_range.mp hc)]
      _ = n + 1 := incidence_row_sum hn hr
  · intro c hc
    calc ∑ r ∈ Finset.range (n ^ 2 + n + 1), matrixEntry (incidence_matrix_list n) r c
        = ∑ r ∈ Finset.range (n ^ 2 + n + 1), incidence_entry n r c :=
          Finset.sum_congr rfl fun r hr => by
            rw [incidence_matrix_list_entry (Finset.mem_range.mp hr) hc]
      _ = n + 1 := incidence_col_sum hn hc

/-- Witness for C1 at the concrete prime order `2`. -/
theorem claim_C1_witness :
    Nat.Prime 2 ∧
      (∃ M : List (List ℕ),
        compute_incidence_matrix ((2 : ℕ) : ℤ) = .ok M ∧
        M.length = 2 ^ 2 + 2 + 1 ∧
        (∀ row ∈ M, row.length = 2 ^ 2 + 2 + 1) ∧
        (∀ r < 2 ^ 2 + 2 + 1, ∀ c < 2 ^ 2 + 2 + 1,
          matrixEntry M r c = 0 ∨ matrixEntry M r c = 1) ∧
        (∀ r < 2 ^ 2 + 2 + 1, ∀ s < 2 ^ 2 + 2 + 1,
          ∑ c ∈ Finset.range (2 ^ 2 + 2 + 1), matrixEntry M r c * matrixEntry M s c =
            2 * (if r = s then 1 else 0) + 1) ∧
        (∀ r < 2 ^ 2 + 2 + 1,
          ∑ c ∈ Finset.range (2 ^ 2 + 2 + 1), matrixEntry M r c = 2 + 1) ∧
        (∀ c < 2 ^ 2 + 2 + 1,
          ∑ r ∈ Finset.range (2 ^ 2 + 2 + 1), matrixEntry M r c = 2 + 1)) :=
  ⟨by norm_num, claim_C1 2 (by norm_num)⟩

/-- C9: at a prime order, every inner-grid closed-form sequence is a valid
permutation of `{1, …, n}`, the permutation-matrix builder accepts it (the
`InvalidPermutation` branch is unreachable), and `compute_incidence_matrix`
never raises on a prime order. -/
theorem claim_C9 (n i j : ℕ) (hp : n.Prime) (hi1 : 1 ≤ i) (hi2 : i ≤ n - 1)
    (hj1 : 1 ≤ j) (hj2 : j ≤ n - 1) :
    ((fpp_permutation n i j).length = n ∧ (fpp_permutation n i j).Nodup ∧
      (∀ x ∈ fpp_permutation n i j, 1 ≤ x ∧ x ≤ (n : ℤ)) ∧
      ∃ m, get_permutation_matrix (fpp_permutation n i j) = .ok m) ∧
      ∃ M, compute_incidence_matrix (n : ℤ) = .ok M := by
  have hn : 0 < n := hp.pos
  have hv := fpp_permutation_valid (n := n) (i := i) (j := j) hn
  have hlen : (fpp_permutation n i j).length = n := by
    simp [fpp_permutation]
  refine ⟨⟨hlen, hv.2.1, ?_, ⟨_, get_permutation_matrix_ok hv⟩⟩,
    ⟨_, compute_incidence_matrix_prime_ok hp⟩⟩
  intro x hx
  have hb := hv.2.2 x hx
  rwa [hlen] at hb

/-- Witness for C9 at order `3` and inner indices `(1, 1)`. -/
theorem claim_C9_witness :
    Nat.Prime 3 ∧
      (((fpp_permutation 3 1 1).length = 3 ∧ (fpp_permutation 3 1 1).Nodup ∧
        (∀ x ∈ fpp_permutation 3 1 1, 1 ≤ x ∧ x ≤ ((3 : ℕ) : ℤ)) ∧
        ∃ m, get_permutation_matrix (fpp_permutation 3 1 1) = .ok m) ∧
        ∃ M, compute_incidence_matrix ((3 : ℕ) : ℤ) = .ok M) :=
  ⟨by norm_num, claim_C9 3 1 1 (by norm_num) (by norm_num) (by norm_num)
    (by norm_num) (by norm_num)⟩

/-- C2 (code bug): the supported prime-power orders `4` and `8` do not reach
the kernel table at all — `compute_incidence_matrix` evaluates
`list(constants.FPP_KERNELS)` and raises `AttributeError`, because the table
is defined under the name `PERMUTATIONS`; no incidence matrix is returned. -/
theorem claim_C2 :
    compute_incidence_matrix 4 = .error .attributeError ∧
      compute_incidence_matrix 8 = .error .attributeError := by
  constructor <;> with_unfolding_all rfl

/-- C3 (code bug): invalid orders are rejected, but not with the documented
`ValueError` — evaluating `list(constants.FPP_KERNELS)` on the non-prime path
raises `AttributeError` instead, for each of the inputs `0`, `1`, `-7`
and `6`. -/
theorem claim_C3 :
    compute_incidence_matrix 0 = .error .attributeError ∧
      compute_incidence_matrix 1 = .error .attributeError ∧
      compute_incidence_matrix (-7) = .error .attributeError ∧
      compute_incidence_matrix 6 = .error .attributeError := by
  refine ⟨?_, ?_, ?_, ?_⟩ <;> with_unfolding_all rfl

/-- C4: `compute_incidence_matrix 2` returns exactly the documented `7 × 7`
matrix. -/
theorem claim_C4 :
    compute_incidence_matrix 2 = .ok
      [[1, 1, 1, 0, 0, 0, 0],
       [1, 0, 0, 1, 1, 0, 0],
       [1, 0, 0, 0, 0, 1, 1],
       [0, 1, 0, 1, 0, 1, 0],
       [0, 1, 0, 0, 1, 0, 1],
       [0, 0, 1, 1, 0, 0, 1],
       [0, 0, 1, 0, 1, 1, 0]] := by
  with_unfolding_all rfl

/-- C5: on a bijection of `{1, …, n}` the builder returns the `n × n` matrix
that is zero everywhere except a single `1` per row at `(row, p[row] - 1)`,
with exactly one `1` per row and per column. -/
theorem claim_C5 (p : List ℤ) (hne : p ≠ []) (hnd : p.Nodup)
    (hmem : ∀ x ∈ p, 1 ≤ x ∧ x ≤ (p.length : ℤ)) :
    ∃ M : List (List ℕ),
      get_permutation_matrix p = .ok M ∧
      M.length = p.length ∧
      (∀ row ∈ M, row.length = p.length) ∧
      (∀ r < p.length, ∀ c < p.length,
        matrixEntry M r c = if p.getD r 0 = (c : ℤ) + 1 then 1 else 0) ∧
      (∀ r < p.length, ∑ c ∈ Finset.range p.length, matrixEntry M r c = 1) ∧
      (∀ c < p.length, ∑ r ∈ Finset.range p.length, matrixEntry M r c = 1) := by
  have hvalid : p ≠ [] ∧ p.Nodup ∧ ∀ x ∈ p, 1 ≤ x ∧ x ≤ (p.length : ℤ) :=
    ⟨hne, hnd, hmem⟩
  set M : List (List ℕ) := (List.range p.length).map (fun row =>
    (List.range p.length).map (fun col : ℕ =>
      if p.getD row 0 = (col : ℤ) + 1 then 1 else 0)) with hM
  have hgm : ∀ r, r < p.length → ∀ c, c < p.length →
      matrixEntry M r c = if p.getD r 0 = (c : ℤ) + 1 then 1 else 0 := by
    intro r hr c hc
    rw [hM, matrixEntry, getD_map_range _ hr, getD_map_range _ hc]
  refine ⟨M, get_permutation_matrix_ok hvalid, by rw [hM]; simp, ?_, hgm, ?_, ?_⟩
  · intro row hrow
    rw [hM, List.mem_map] at hrow
    obtain ⟨r, -, rfl⟩ := hrow
    simp
  · intro r hr
    have hvmem : p.get ⟨r, hr⟩ ∈ p := p.get_mem r hr
    obtain ⟨hv1, hv2⟩ := hmem _ hvmem
    have hgd : p.getD r 0 = p.get ⟨r, hr⟩ := getD_eq_get p 0 hr
    calc ∑ c ∈ Finset.range p.length, matrixEntry M r c
        = ∑ c ∈ Finset.range p.length,
            (if c = (p.get ⟨r, hr⟩ - 1).toNat then 1 else 0) := by
          refine Finset.sum_congr rfl fun c hc => ?_
          rw [hgm r hr c (Finset.mem_range.mp hc), hgd]
          exact if_congr (by omega) rfl rfl
      _ = 1 := sum_indicator_eq (by omega)
  · intro c hc
    have hw : ((c : ℤ) + 1) ∈ p := by
      have hset := ((perm_check_iff p).mpr hvalid).1
      have hmem' : ((c : ℤ) + 1) ∈ p.toFinset := by
        rw [hset]
        exact Finset.mem_image.mpr ⟨c, Finset.mem_range.mpr hc, rfl⟩
      exact List.mem_toFinset.mp hmem'
    obtain ⟨r0, hr0⟩ := List.mem_iff_get.mp hw
    have hinj := List.nodup_iff_injective_get.mp hnd
    calc ∑ r ∈ Finset.range p.length, matrixEntry M r c
        = ∑ r ∈ Finset.range p.length, (if r = (r0 : ℕ) then 1 else 0) := by
          refine Finset.sum_congr rfl fun r hr => ?_
          have hrlen := Finset.mem_range.mp hr
          rw [hgm r hrlen c hc, getD_eq_get p 0 hrlen]
          refine if_congr ⟨fun h => ?_, fun h => ?_⟩ rfl rfl
          · exact congrArg Fin.val (hinj (h.trans hr0.symm))
          · rw [show (⟨r, hrlen⟩ : Fin p.length) = r0 from Fin.ext h]
            exact hr0
      _ = 1 := sum_indicator_eq r0.isLt

/-- Witness for C5 at the concrete permutation `[2, 4, 1, 3]`, together with
the literal matrix it produces. -/
theorem claim_C5_witness :
    (([2, 4, 1, 3] : List ℤ) ≠ [] ∧ ([2, 4, 1, 3] : List ℤ).Nodup ∧
      (∀ x ∈ ([2, 4, 1, 3] : List ℤ), 1 ≤ x ∧ x ≤ ((([2, 4, 1, 3] : List ℤ)).length : ℤ))) ∧
      (∃ M : List (List ℕ),
        get_permutation_matrix [2, 4, 1, 3] = .ok M ∧
        M.length = ([2, 4, 1, 3] : List ℤ).length ∧
        (∀ row ∈ M, row.length = ([2, 4, 1, 3] : List ℤ).length) ∧
        (∀ r < ([2, 4, 1, 3] : List ℤ).length, ∀ c < ([2, 4, 1, 3] : List ℤ).length,
          matrixEntry M r c =
            if ([2, 4, 1, 3] : List ℤ).getD r 0 = (c : ℤ) + 1 then 1 else 0) ∧
        (∀ r < ([2, 4, 1, 3] : List ℤ).length,
          ∑ c ∈ Finset.range ([2, 4, 1, 3] : List ℤ).length, matrixEntry M r c = 1) ∧
        (∀ c < ([2, 4, 1, 3] : List ℤ).length,
          ∑ r ∈ Finset.range ([2, 4, 1, 3] : List ℤ).length, matrixEntry M r c = 1)) ∧
      get_permutation_matrix [2, 4, 1, 3] =
        .ok [[0, 1, 0, 0], [0, 0, 0, 1], [1, 0, 0, 0], [0, 0, 1, 0]] :=
  ⟨⟨by decide, by decide, by decide⟩,
    claim_C5 [2, 4, 1, 3] (by decide) (by decide) (by decide),
    by with_unfolding_all rfl⟩

/-- C6: the builder fails, always with `InvalidPermutation` (`ValueError`),
exactly when the input is not a duplicate-free enumeration of `{1, …, n}`;
in particular the five documented malformed inputs are rejected. -/
theorem claim_C6 :
    (∀ p : List ℤ,
      get_permutation_matrix p = .error .valueError ↔
        ¬ (p ≠ [] ∧ p.Nodup ∧ ∀ x ∈ p, 1 ≤ x ∧ x ≤ (p.length : ℤ))) ∧
      get_permutation_matrix [1, 1, 3, 4, 5] = .error .valueError ∧
      get_permutation_matrix [1, 2, 2, 3, 4] = .error .valueError ∧
      get_permutation_matrix [4, 1, 2] = .error .valueError ∧
      get_permutation_matrix [0, 1, 2, 3, 4] = .error .valueError ∧
      get_permutation_matrix ([] : List ℤ) = .error .valueError := by
  refine ⟨get_permutation_matrix_error_iff, ?_, ?_, ?_, ?_, ?_⟩ <;> with_unfolding_all rfl

/-- Witness for C6 instantiated at the valid permutation `[2, 4, 1, 3]`. -/
theorem claim_C6_witness :
    get_permutation_matrix [2, 4, 1, 3] = .error .valueError ↔
      ¬ (([2, 4, 1, 3] : List ℤ) ≠ [] ∧ ([2, 4, 1, 3] : List ℤ).Nodup ∧
        ∀ x ∈ ([2, 4, 1, 3] : List ℤ), 1 ≤ x ∧ x ≤ ((([2, 4, 1, 3] : List ℤ)).length : ℤ)) :=
  claim_C6.1 [2, 4, 1, 3]

/-- C7: `is_prime` returns true exactly on integral inputs `> 1` with no
divisor in `[2, ⌊√x⌋]` — equivalently, exactly on the prime integers — and
false (never an error) on non-integers, on values `≤ 1` and on negatives. -/
theorem claim_C7 (q : ℚ) :
    (is_prime q = true ↔
      (q.den = 1 ∧ 1 < q.num ∧
        ∀ d : ℤ, 2 ≤ d → d ≤ (Nat.sqrt q.num.toNat : ℤ) → ¬ d ∣ q.num)) ∧
    (is_prime q = true ↔ (q.den = 1 ∧ 1 < q.num ∧ q.num.toNat.Prime)) := by
  refine ⟨is_prime_eq_true_iff q, ⟨?_, ?_⟩⟩
  · intro htrue
    obtain ⟨hden, hnum, -⟩ := (is_prime_eq_true_iff q).mp htrue
    refine ⟨hden, hnum, ?_⟩
    have hq : ((q.num.toNat : ℤ) : ℚ) = q := by
      rw [Int.toNat_of_nonneg (by omega)]
      exact Rat.coe_int_num_of_den_eq_one hden
    exact (is_prime_natCast_iff q.num.toNat).mp (by rwa [hq])
  · rintro ⟨hden, hnum, hprime⟩
    have hq : ((q.num.toNat : ℤ) : ℚ) = q := by
      rw [Int.toNat_of_nonneg (by omega)]
      exact Rat.coe_int_num_of_den_eq_one hden
    rw [← hq]
    exact (is_prime_natCast_iff q.num.toNat).mpr hprime

/-- Witness for C7 at the concrete input `7`. -/
theorem claim_C7_witness :
    (is_prime 7 = true ↔
      ((7 : ℚ).den = 1 ∧ 1 < (7 : ℚ).num ∧
        ∀ d : ℤ, 2 ≤ d → d ≤ (Nat.sqrt (7 : ℚ).num.toNat : ℤ) → ¬ d ∣ (7 : ℚ).num)) ∧
    (is_prime 7 = true ↔ ((7 : ℚ).den = 1 ∧ 1 < (7 : ℚ).num ∧ (7 : ℚ).num.toNat.Prime)) :=
  claim_C7 7

/-- C10: the kernel lookup table is well-formed: the order-4 grid is `3 × 3`
and each entry is a valid permutation of `{1, …, 4}`; the order-8 grid is
`7 × 7` and each entry is a valid permutation of `{1, …, 8}`; every entry
passes the permutation-matrix builder's validation. -/
theorem claim_C10 :
    PERMUTATIONS 4 = some PERMUTATIONS_4 ∧ PERMUTATIONS 8 = some PERMUTATIONS_8 ∧
    PERMUTATIONS_4.length = 3 ∧ (∀ row ∈ PERMUTATIONS_4, row.length = 3) ∧
    (∀ row ∈ PERMUTATIONS_4, ∀ q ∈ row, q.length = 4 ∧ q.Nodup ∧
      (∀ x ∈ q, 1 ≤ x ∧ x ≤ 4) ∧ (get_permutation_matrix q).toOption.isSome = true) ∧
    PERMUTATIONS_8.length = 7 ∧ (∀ row ∈ PERMUTATIONS_8, row.length = 7) ∧
    (∀ row ∈ PERMUTATIONS_8, ∀ q ∈ row, q.length = 8 ∧ q.Nodup ∧
      (∀ x ∈ q, 1 ≤ x ∧ x ≤ 8) ∧ (get_permutation_matrix q).toOption.isSome = true) := by
  decide

end Dobble
